import Mathlib

/-!
# Verification of the chunked parallel RLE compressor (`task2_simple.cpp`)

Shallow embedding of the program in `src/task2_simple.cpp`: a run-length
encoding (RLE) codec over byte sequences, a chunk source that cuts the
input into 1 MiB windows, a frame format `[index:8][length:8][payload]`
written by compression workers, the sequential decompressor, and a
small-step model of the workers' mutually exclusive appends to the
shared output stream.

Bytes are modelled as `Nat`; entries of real files are below 256.  The
C++ `char`/`unsigned char` casts only matter at the run-count byte,
where we mirror the `static_cast<unsigned char>` of the decoder with an
explicit `% 256`.
-/

/-- Constant `CHUNK_SIZE` (line 9 of the source): the fixed chunk window, 1 MiB. -/
def CHUNK_SIZE : Nat := 1024 * 1024

/-- A `Chunk` (lines 11–14): a monotone index and the chunk's bytes. -/
structure Chunk where
  index : Nat
  data : List Nat
  deriving Repr, DecidableEq

/-- The inner counting loop of `RLECompress` (line 27): how many further
leading elements of the list equal `c`, capped at `cap`.  In the source the
cap is 254 further repetitions, because `count` starts at 1 and may grow
only while `count < 255`. -/
def runCount (c : Nat) : Nat → List Nat → Nat
  | _, [] => 0
  | 0, _ :: _ => 0
  | cap + 1, x :: xs => if x = c then 1 + runCount c cap xs else 0

/-- Function `RLECompress` (lines 21–35): scan the input; for the run at the head
emit the byte and the run length (at most 255), then continue after the
counted run. -/
def RLECompress : List Nat → List Nat
  | [] => []
  | c :: rest =>
      c :: (1 + runCount c 254 rest) :: RLECompress (rest.drop (runCount c 254 rest))
termination_by s => s.length
decreasing_by
  simp only [List.length_drop, List.length_cons]
  omega

/-- Function `RLEDecompress` (lines 37–45): consume `(value, count)` pairs, emitting
`count` copies of `value`; the count byte is read as `unsigned char`, hence
the `% 256`.  A trailing lone byte (odd input length) is ignored by the
loop guard `i + 1 < input.size()`. -/
def RLEDecompress : List Nat → List Nat
  | v :: k :: rest => List.replicate (k % 256) v ++ RLEDecompress rest
  | _ => []

theorem runCount_le_cap (c : Nat) : ∀ (cap : Nat) (xs : List Nat),
    runCount c cap xs ≤ cap
  | _, [] => by simp [runCount]
  | 0, _ :: _ => by simp [runCount]
  | cap + 1, x :: xs => by
      have := runCount_le_cap c cap xs
      by_cases h : x = c <;> simp [runCount, h] <;> omega

theorem runCount_le_length (c : Nat) : ∀ (cap : Nat) (xs : List Nat),
    runCount c cap xs ≤ xs.length
  | _, [] => by simp [runCount]
  | 0, _ :: _ => by simp [runCount]
  | cap + 1, x :: xs => by
      have := runCount_le_length c cap xs
      by_cases h : x = c <;> simp [runCount, h] <;> omega

/-- The counted run really is a run: the first `runCount c cap xs` elements
of `xs` are all equal to `c`. -/
theorem take_runCount (c : Nat) : ∀ (cap : Nat) (xs : List Nat),
    xs.take (runCount c cap xs) = List.replicate (runCount c cap xs) c
  | _, [] => by simp [runCount]
  | 0, _ :: _ => by simp [runCount]
  | cap + 1, x :: xs => by
      by_cases h : x = c
      · simp [runCount, h, Nat.add_comm 1 (runCount c cap xs), List.replicate_succ,
          take_runCount c cap xs]
      · simp [runCount, h]

/-- Decoding inverts encoding; the workhorse behind C1 and the pipeline
round trip. -/
theorem rle_inv : ∀ s : List Nat, RLEDecompress (RLECompress s) = s
  | [] => by simp [RLECompress, RLEDecompress]
  | c :: rest => by
      have hcap : runCount c 254 rest ≤ 254 := runCount_le_cap c 254 rest
      have ih := rle_inv (rest.drop (runCount c 254 rest))
      rw [RLECompress]
      simp only [RLEDecompress, ih]
      have hmod : (1 + runCount c 254 rest) % 256 = 1 + runCount c 254 rest :=
        Nat.mod_eq_of_lt (by omega)
      rw [hmod, Nat.add_comm 1 (runCount c 254 rest), List.replicate_succ,
        List.cons_append, ← take_runCount c 254 rest]
      exact congrArg (List.cons c) (List.take_append_drop _ _)
termination_by s => s.length
decreasing_by
  simp only [List.length_drop, List.length_cons]
  omega

/-- Run splitting as the spec words it: a maximal run of `n` copies of `x`
becomes `(x, 255)` pairs for each full slice of 255 and one final pair with
the remainder.  Stated separately from `RLECompress` so the two can be
compared. -/
def specRunSplit (x : Nat) (n : Nat) : List Nat :=
  if n = 0 then []
  else if n ≤ 255 then [x, n]
  else x :: 255 :: specRunSplit x (n - 255)
termination_by n
decreasing_by omega

theorem runCount_replicate (c : Nat) : ∀ (cap m : Nat),
    runCount c cap (List.replicate m c) = min cap m
  | cap, 0 => by simp [runCount]
  | 0, m + 1 => by simp [runCount, List.replicate_succ]
  | cap + 1, m + 1 => by
      have := runCount_replicate c cap m
      simp only [List.replicate_succ, runCount, if_true, eq_self_iff_true, this]
      omega

/-- Encoding a pure run of length `n` produces exactly the spec's split
into pairs of at most 255. -/
theorem rle_replicate : ∀ (n x : Nat), RLECompress (List.replicate n x) = specRunSplit x n
  | 0, x => by
      rw [specRunSplit]
      simp [RLECompress]
  | n + 1, x => by
      rw [List.replicate_succ, RLECompress, runCount_replicate]
      by_cases h : n + 1 ≤ 255
      · have hmin : min 254 n = n := by omega
        rw [specRunSplit, if_neg (by omega), if_pos h, hmin]
        simp [List.drop_replicate, RLECompress, Nat.add_comm]
      · have hmin : min 254 n = 254 := by omega
        have hne : ¬(n + 1 = 0) := by omega
        rw [hmin, List.drop_replicate]
        have ih := rle_replicate (n - 254) x
        rw [specRunSplit]
        rw [if_neg hne, if_neg h]
        rw [ih]
        have h1 : (1 : Nat) + 254 = 255 := by norm_num
        have h2 : n + 1 - 255 = n - 254 := by omega
        rw [h1, h2]
termination_by n x => n
decreasing_by omega

/-- Well-formedness of an RLE pair stream, as checked two bytes at a time:
even length, and every count byte between 1 and 255. -/
def countsOk : List Nat → Bool
  | [] => true
  | _ :: k :: rest => decide (1 ≤ k) && decide (k ≤ 255) && countsOk rest
  | [_] => false

/-- Structural invariants of the encoder output: well-formed pairs and at
most a factor-two expansion. -/
theorem rle_wf : ∀ s : List Nat,
    countsOk (RLECompress s) = true ∧ (RLECompress s).length ≤ 2 * s.length
  | [] => by simp [RLECompress, countsOk]
  | c :: rest => by
      obtain ⟨hok, hlen⟩ := rle_wf (rest.drop (runCount c 254 rest))
      have hcap := runCount_le_cap c 254 rest
      have hle := runCount_le_length c 254 rest
      rw [RLECompress]
      constructor
      · simp only [countsOk, hok, Bool.and_true, Bool.and_eq_true, decide_eq_true_eq]
        omega
      · simp only [List.length_cons, List.length_drop] at hlen ⊢
        omega
termination_by s => s.length
decreasing_by
  simp only [List.length_drop, List.length_cons]
  omega

/-- Dropping the final lone byte of an odd-length input does not change the
decoder's output: the loop guard `i + 1 < input.size()` never reads it. -/
theorem rle_decode_dropLast : ∀ s : List Nat, Odd s.length →
    RLEDecompress s = RLEDecompress s.dropLast
  | [], h => by simp at h
  | [v], _ => by simp [RLEDecompress]
  | [v, k], h => by
      rw [Nat.odd_iff] at h
      simp at h
  | v :: k :: r :: rest, h => by
      have hr : Odd (r :: rest).length := by
        rw [Nat.odd_iff] at h ⊢
        simp only [List.length_cons] at h ⊢
        omega
      have ih := rle_decode_dropLast (r :: rest) hr
      rw [List.dropLast_cons₂, List.dropLast_cons₂]
      simp only [RLEDecompress]
      rw [ih]

/-- Helper for the safety claim: any list of length at most one decodes to
nothing. -/
theorem rle_decode_short (s : List Nat) (h : s.length ≤ 1) : RLEDecompress s = [] := by
  match s with
  | [] => rfl
  | [v] => rfl
  | v :: k :: rest => simp at h

/-- Bounds-checked image of the decode loop of `RLEDecompress`
(lines 39–43): every array access `input[i]`, `input[i + 1]` is performed
through an option-returning lookup, and any out-of-bounds access would
surface as `none`. -/
def rleDecodeAt (input : List Nat) (i : Nat) : Option (List Nat) :=
  if h : i + 1 < input.length then
    match input[i]?, input[i + 1]? with
    | some ch, some k =>
        match rleDecodeAt input (i + 2) with
        | some rest => some (List.replicate (k % 256) ch ++ rest)
        | none => none
    | _, _ => none
  else some []
termination_by input.length - i
decreasing_by omega

/-- The bounds-checked loop never goes out of bounds and agrees with the
total decoder from any start position. -/
theorem rleDecodeAt_eq : ∀ (input : List Nat) (i : Nat),
    rleDecodeAt input i = some (RLEDecompress (input.drop i))
  | input, i => by
      rw [rleDecodeAt]
      by_cases h : i + 1 < input.length
      · rw [dif_pos h]
        have h0 : i < input.length := by omega
        have h1 : i + 1 < input.length := h
        have e0 : input[i]? = some input[i] := List.getElem?_eq_getElem h0
        have e1 : input[i + 1]? = some input[i + 1] := List.getElem?_eq_getElem h1
        have ih := rleDecodeAt_eq input (i + 2)
        rw [e0, e1, ih]
        have hdrop : input.drop i = input[i] :: input[i + 1] :: input.drop (i + 2) := by
          rw [List.drop_eq_getElem_cons h0, List.drop_eq_getElem_cons h1]
        rw [hdrop]
        simp [RLEDecompress]
      · rw [dif_neg h]
        have : (input.drop i).length ≤ 1 := by
          simp only [List.length_drop]
          omega
        rw [rle_decode_short _ this]
termination_by input i => input.length - i
decreasing_by omega

/-- Little-endian byte image of a `size_t` value in `w` bytes: the memory
bytes laid down by `out.write(reinterpret_cast ...)` (lines 64–65) on a
little-endian host whose `size_t` is 8 bytes wide. -/
def leBytes : Nat → Nat → List Nat
  | _, 0 => []
  | n, w + 1 => n % 256 :: leBytes (n / 256) w

/-- Value reconstructed from a little-endian byte image, as the
`in.read(reinterpret_cast ...)` calls of `decompressFile` (lines 111–112)
reconstruct a `size_t` from the stream. -/
def leDecode : List Nat → Nat
  | [] => 0
  | b :: bs => b % 256 + 256 * leDecode bs

theorem leBytes_length : ∀ (n w : Nat), (leBytes n w).length = w
  | _, 0 => rfl
  | n, w + 1 => by simp [leBytes, leBytes_length (n / 256) w]

theorem leDecode_leBytes : ∀ (w n : Nat), leDecode (leBytes n w) = n % 256 ^ w
  | 0, n => by simp [leBytes, leDecode, Nat.mod_one]
  | w + 1, n => by
      have ih := leDecode_leBytes w (n / 256)
      simp only [leBytes, leDecode, ih, Nat.mod_mod_of_dvd n dvd_rfl]
      rw [pow_succ, mul_comm (256 ^ w) 256, Nat.mod_mul]

/-- The chunk-reading loop of `compressFile` (lines 80–92): successive
`CHUNK_SIZE` windows of the input, each tagged with the count of chunks
already produced; the loop stops as soon as a read returns zero bytes.
The worker count plays no part in chunking. -/
def chunkify (s : List Nat) (idx : Nat) : List Chunk :=
  if h : s = [] then []
  else ⟨idx, s.take CHUNK_SIZE⟩ :: chunkify (s.drop CHUNK_SIZE) (idx + 1)
termination_by s.length
decreasing_by
  have hs : 0 < s.length := List.length_pos.mpr h
  have hc : 0 < CHUNK_SIZE := by norm_num [CHUNK_SIZE]
  simp only [List.length_drop]
  omega

theorem chunkify_nil (idx : Nat) : chunkify [] idx = [] := by
  rw [chunkify]
  simp

theorem chunkify_cons (s : List Nat) (idx : Nat) (h : s ≠ []) :
    chunkify s idx = ⟨idx, s.take CHUNK_SIZE⟩ :: chunkify (s.drop CHUNK_SIZE) (idx + 1) := by
  rw [chunkify, dif_neg h]

/-- Chunk indices are consecutive, starting from the running counter. -/
theorem chunkify_index : ∀ (s : List Nat) (idx : Nat),
    (chunkify s idx).map Chunk.index = List.range' idx (chunkify s idx).length
  | s, idx => by
      by_cases h : s = []
      · subst h
        simp [chunkify_nil]
      · rw [chunkify_cons s idx h]
        have ih := chunkify_index (s.drop CHUNK_SIZE) (idx + 1)
        simp only [List.map_cons, List.length_cons, ih]
        rw [List.range'_succ idx _ 1]
termination_by s idx => s.length
decreasing_by
  have hs := List.length_pos.mpr h
  have hc : 0 < CHUNK_SIZE := by norm_num [CHUNK_SIZE]
  simp only [List.length_drop]
  omega

/-- Chunk `i` holds exactly the bytes of window `i` of the input: the next
`CHUNK_SIZE` bytes after position `i * CHUNK_SIZE`, hence a full window
everywhere but possibly the final chunk, which holds the exact remainder. -/
theorem chunkify_getElem : ∀ (s : List Nat) (idx i : Nat) (c : Chunk),
    (chunkify s idx)[i]? = some c → c.data = (s.drop (i * CHUNK_SIZE)).take CHUNK_SIZE
  | s, idx, i, c => by
      by_cases hs : s = []
      · subst hs
        rw [chunkify_nil]
        intro hmem
        simp at hmem
      · rw [chunkify_cons s idx hs]
        match i with
        | 0 =>
            intro hc
            rw [List.getElem?_cons_zero, Option.some_inj] at hc
            subst hc
            simp
        | i + 1 =>
            intro hc
            rw [List.getElem?_cons_succ] at hc
            have ih := chunkify_getElem (s.drop CHUNK_SIZE) (idx + 1) i c hc
            rw [ih, List.drop_drop]
            have harith : CHUNK_SIZE + i * CHUNK_SIZE = (i + 1) * CHUNK_SIZE := by ring
            rw [harith]
termination_by s idx i c => s.length
decreasing_by
  have hl := List.length_pos.mpr hs
  have hc2 : 0 < CHUNK_SIZE := by norm_num [CHUNK_SIZE]
  simp only [List.length_drop]
  omega

/-- Reassembling the chunk windows gives back the input. -/
theorem chunkify_flatten : ∀ (s : List Nat) (idx : Nat),
    ((chunkify s idx).map Chunk.data).flatten = s
  | s, idx => by
      by_cases h : s = []
      · subst h
        simp [chunkify_nil]
      · rw [chunkify_cons s idx h]
        have ih := chunkify_flatten (s.drop CHUNK_SIZE) (idx + 1)
        simp only [List.map_cons, List.flatten_cons, ih]
        exact List.take_append_drop _ _
termination_by s idx => s.length
decreasing_by
  have hs := List.length_pos.mpr h
  have hc : 0 < CHUNK_SIZE := by norm_num [CHUNK_SIZE]
  simp only [List.length_drop]
  omega

/-- Every chunk the source produces fits in one window. -/
theorem chunkify_data_le : ∀ (s : List Nat) (idx : Nat), ∀ c ∈ chunkify s idx,
    c.data.length ≤ CHUNK_SIZE
  | s, idx => by
      by_cases h : s = []
      · subst h
        simp [chunkify_nil]
      · rw [chunkify_cons s idx h]
        intro c hc
        rcases List.mem_cons.mp hc with hc | hc
        · subst hc
          simp [List.length_take]
        · exact chunkify_data_le (s.drop CHUNK_SIZE) (idx + 1) c hc
termination_by s idx => s.length
decreasing_by
  have hs := List.length_pos.mpr h
  have hc : 0 < CHUNK_SIZE := by norm_num [CHUNK_SIZE]
  simp only [List.length_drop]
  omega

/-- One frame record as appended by a compression worker under the output
mutex (lines 60–67): the chunk index as 8 bytes, the compressed payload
length as 8 bytes, then the payload `RLECompress(chunk.data)`. -/
def frameRecord (c : Chunk) : List Nat :=
  leBytes c.index 8 ++ leBytes (RLECompress c.data).length 8 ++ RLECompress c.data

/-- Function `decompressFile` (lines 105–123), from the bytes of the
compressed stream to the bytes written to the output stream.  Each pass
reads a 16-byte header (8 bytes of index, which the loop never uses, then
8 bytes of payload length), reads that many payload bytes, decodes them
and appends the result.  When fewer than 16 bytes remain, a header read
fails: the stream enters the failed state, the remaining reads extract
nothing, the zero-initialised payload buffer decodes to nothing, and
`peek` then ends the loop, so nothing further is written.  When the
declared length exceeds the remaining bytes, the value-initialised buffer
keeps its zero tail beyond the bytes actually read and the failed stream
ends the loop after this record. -/
def decompressFile (s : List Nat) : List Nat :=
  if h : s.length < 16 then []
  else if leDecode ((s.drop 8).take 8) ≤ (s.drop 16).length then
    RLEDecompress ((s.drop 16).take (leDecode ((s.drop 8).take 8))) ++
      decompressFile ((s.drop 16).drop (leDecode ((s.drop 8).take 8)))
  else
    RLEDecompress
      (s.drop 16 ++ List.replicate (leDecode ((s.drop 8).take 8) - (s.drop 16).length) 0)
termination_by s.length
decreasing_by
  simp only [List.length_drop]
  omega

/-- Pipeline output of `compressFile` (lines 72–103) with `threadCount = 1`:
the lone worker drains the FIFO work queue in enqueue order and appends one
whole frame record per chunk, so the output stream is the concatenation of
the records in chunk order. -/
def compressFile1 (F : List Nat) : List Nat :=
  ((chunkify F 0).map frameRecord).flatten

/-- Consuming one well-formed frame: the decompressor reads the 16-byte
header, takes exactly the declared payload, decodes it back to the chunk
bytes and continues on the rest of the stream. -/
theorem decompressFile_frame (c : Chunk) (rest : List Nat)
    (hlen : (RLECompress c.data).length < 256 ^ 8) :
    decompressFile (frameRecord c ++ rest) = c.data ++ decompressFile rest := by
  have h8i : (leBytes c.index 8).length = 8 := leBytes_length _ 8
  have h8l : (leBytes (RLECompress c.data).length 8).length = 8 := leBytes_length _ 8
  have hassoc : frameRecord c ++ rest =
      leBytes c.index 8 ++
        (leBytes (RLECompress c.data).length 8 ++ (RLECompress c.data ++ rest)) := by
    simp [frameRecord, List.append_assoc]
  have hdrop8 : (frameRecord c ++ rest).drop 8 =
      leBytes (RLECompress c.data).length 8 ++ (RLECompress c.data ++ rest) := by
    rw [hassoc]
    exact List.drop_left' h8i
  have htake8 : ((frameRecord c ++ rest).drop 8).take 8 =
      leBytes (RLECompress c.data).length 8 := by
    rw [hdrop8]
    exact List.take_left' h8l
  have hdrop16 : (frameRecord c ++ rest).drop 16 = RLECompress c.data ++ rest := by
    have h1 : (frameRecord c ++ rest).drop 16 =
        ((frameRecord c ++ rest).drop 8).drop 8 := by
      rw [List.drop_drop]
    rw [h1, hdrop8]
    exact List.drop_left' h8l
  have hsize : leDecode (((frameRecord c ++ rest).drop 8).take 8) =
      (RLECompress c.data).length := by
    rw [htake8, leDecode_leBytes]
    exact Nat.mod_eq_of_lt hlen
  have hlong : ¬((frameRecord c ++ rest).length < 16) := by
    rw [hassoc]
    simp [h8i, h8l]
    omega
  rw [decompressFile, dif_neg hlong, hsize, hdrop16]
  rw [if_pos (by simp)]
  rw [List.take_left' rfl, List.drop_left' rfl, rle_inv]

/-- The sequential decompressor undoes the in-order frame stream of the
chunk source. -/
theorem decompressFile_chunks : ∀ (s : List Nat) (idx : Nat),
    decompressFile (((chunkify s idx).map frameRecord).flatten) = s
  | s, idx => by
      by_cases h : s = []
      · subst h
        rw [chunkify_nil]
        simp only [List.map_nil, List.flatten_nil]
        rw [decompressFile]
        simp
      · rw [chunkify_cons s idx h]
        simp only [List.map_cons, List.flatten_cons]
        have hlt : (RLECompress (s.take CHUNK_SIZE)).length < 256 ^ 8 := by
          have h2 := (rle_wf (s.take CHUNK_SIZE)).2
          have h3 : (s.take CHUNK_SIZE).length ≤ CHUNK_SIZE := by
            simp [List.length_take]
          have hC : 2 * CHUNK_SIZE < 256 ^ 8 := by norm_num [CHUNK_SIZE]
          omega
        rw [decompressFile_frame ⟨idx, s.take CHUNK_SIZE⟩ _ hlt]
        have ih := decompressFile_chunks (s.drop CHUNK_SIZE) (idx + 1)
        rw [ih]
        exact List.take_append_drop _ _
termination_by s idx => s.length
decreasing_by
  have hs := List.length_pos.mpr h
  have hc : 0 < CHUNK_SIZE := by norm_num [CHUNK_SIZE]
  simp only [List.length_drop]
  omega

/-- A well-formed pair stream has even length. -/
theorem countsOk_even : ∀ s : List Nat, countsOk s = true → Even s.length
  | [], _ => by simp
  | [_], h => by simp [countsOk] at h
  | _ :: _ :: rest, h => by
      have hr : countsOk rest = true := by
        simp only [countsOk, Bool.and_eq_true] at h
        exact h.2
      have ih := countsOk_even rest hr
      rw [Nat.even_iff] at ih ⊢
      simp only [List.length_cons]
      omega

/-- C1: for every byte sequence `S`, `RLEDecompress (RLECompress S) = S`;
encode followed by decode is the identity on all inputs, including the
empty one and inputs whose runs are longer than 255. -/
theorem rle_encode_decode_id (s : List Nat) : RLEDecompress (RLECompress s) = s :=
  rle_inv s

/-- C2: with a single worker the full pipeline round-trips; the worker
preserves enqueue order, so decompressing the compressed stream of any
input `F` written to a fresh output file reproduces `F` byte for byte. -/
theorem pipeline_roundtrip_single_worker (F : List Nat) :
    decompressFile (compressFile1 F) = F :=
  decompressFile_chunks F 0

/-- C3: `RLECompress` turns each maximal run into `(value, count)` pairs of
at most 255 repetitions apiece — a run of `n` copies of `x` encodes to the
spec's split `specRunSplit x n`, and in particular 300 copies of `x`
encode to `(x, 255)` followed by `(x, 45)`. -/
theorem rle_run_splitting :
    (∀ (x n : Nat), RLECompress (List.replicate n x) = specRunSplit x n) ∧
      ∀ x : Nat, RLECompress (List.replicate 300 x) = [x, 255, x, 45] := by
  constructor
  · intro x n
    exact rle_replicate n x
  · intro x
    rw [rle_replicate 300 x]
    rw [specRunSplit]
    norm_num
    rw [specRunSplit]
    norm_num

/-- C4: the chunk source cuts the input into `CHUNK_SIZE` windows — chunk
`i` carries exactly the bytes of window `i`, so every chunk but the last is
full and the last holds the exact remainder; indices are consecutive from
0; reading stops on an empty input; and an input of 1.5 chunk sizes gives
exactly two chunks (one full, one half) whatever the worker count. -/
theorem chunk_source_spec :
    (∀ s : List Nat, (chunkify s 0).map Chunk.index = List.range' 0 (chunkify s 0).length) ∧
      (∀ (s : List Nat) (i : Nat) (c : Chunk), (chunkify s 0)[i]? = some c →
        c.data = (s.drop (i * CHUNK_SIZE)).take CHUNK_SIZE) ∧
      chunkify ([] : List Nat) 0 = [] ∧
      ∀ (workerCount : Nat) (s : List Nat), s.length = 3 * CHUNK_SIZE / 2 →
        (chunkify s 0).length = 2 ∧
          (chunkify s 0).map (fun c => c.data.length) = [CHUNK_SIZE, CHUNK_SIZE / 2] := by
  refine ⟨fun s => chunkify_index s 0, fun s i c h => chunkify_getElem s 0 i c h,
    chunkify_nil 0, ?_⟩
  intro _workerCount s hs
  have hC : CHUNK_SIZE = 1048576 := by norm_num [CHUNK_SIZE]
  have hlen : s.length = 1572864 := by
    rw [hs, hC]
  have h1 : s ≠ [] := by
    intro h
    rw [h] at hlen
    simp at hlen
  have hd1 : (s.drop CHUNK_SIZE).length = 524288 := by
    simp [List.length_drop, hlen, hC]
  have h2 : s.drop CHUNK_SIZE ≠ [] := by
    intro h
    rw [h] at hd1
    simp at hd1
  have h3 : (s.drop CHUNK_SIZE).drop CHUNK_SIZE = [] := by
    have : ((s.drop CHUNK_SIZE).drop CHUNK_SIZE).length = 0 := by
      simp [List.length_drop, hlen, hC]
    exact List.length_eq_zero.mp this
  rw [chunkify_cons s 0 h1, chunkify_cons _ 1 h2, h3, chunkify_nil]
  constructor
  · rfl
  · simp only [List.map_cons, List.map_nil, List.length_take]
    rw [hlen, hd1, hC]
    norm_num

/-- C5: each frame record a worker appends consists of 8 bytes of chunk
index, 8 bytes of payload length, then exactly that many payload bytes;
the payload is `RLECompress` of the chunk data and the written length
field always decodes to the payload's length. -/
theorem frame_layout (c : Chunk) (h : c.data.length ≤ CHUNK_SIZE) :
    (frameRecord c).length = 16 + (RLECompress c.data).length ∧
      (frameRecord c).take 8 = leBytes c.index 8 ∧
      ((frameRecord c).drop 8).take 8 = leBytes (RLECompress c.data).length 8 ∧
      (frameRecord c).drop 16 = RLECompress c.data ∧
      leDecode (((frameRecord c).drop 8).take 8) = (RLECompress c.data).length := by
  have h8i : (leBytes c.index 8).length = 8 := leBytes_length _ 8
  have h8l : (leBytes (RLECompress c.data).length 8).length = 8 := leBytes_length _ 8
  have hassoc : frameRecord c =
      leBytes c.index 8 ++
        (leBytes (RLECompress c.data).length 8 ++ RLECompress c.data) := by
    simp [frameRecord, List.append_assoc]
  have hdrop8 : (frameRecord c).drop 8 =
      leBytes (RLECompress c.data).length 8 ++ RLECompress c.data := by
    rw [hassoc]
    exact List.drop_left' h8i
  have htake8 : ((frameRecord c).drop 8).take 8 =
      leBytes (RLECompress c.data).length 8 := by
    rw [hdrop8]
    exact List.take_left' h8l
  have hlt : (RLECompress c.data).length < 256 ^ 8 := by
    have h2 := (rle_wf c.data).2
    have hC : 2 * CHUNK_SIZE < 256 ^ 8 := by norm_num [CHUNK_SIZE]
    omega
  refine ⟨?_, ?_, htake8, ?_, ?_⟩
  · rw [hassoc]
    simp [h8i, h8l]
    omega
  · rw [hassoc]
    exact List.take_left' h8i
  · have h1 : (frameRecord c).drop 16 = ((frameRecord c).drop 8).drop 8 := by
      rw [List.drop_drop]
    rw [h1, hdrop8]
    exact List.drop_left' h8l
  · rw [htake8, leDecode_leBytes]
    exact Nat.mod_eq_of_lt hlt

/-- Witness for C5 at the chunk with index 0 and empty data. -/
theorem frame_layout_witness :
    (frameRecord ⟨0, []⟩).take 8 = leBytes 0 8 :=
  (frame_layout ⟨0, []⟩ (Nat.zero_le _)).2.1

/-- Witness for C4 at a concrete input of 1.5 chunk sizes. -/
theorem chunk_source_spec_witness :
    (chunkify (List.replicate (3 * CHUNK_SIZE / 2) 0) 0).length = 2 :=
  (chunk_source_spec.2.2.2 4 (List.replicate (3 * CHUNK_SIZE / 2) 0) (by simp)).1

/-- C6: if end-of-stream arrives before a full 16-byte frame header can be
read, the decompressor stops cleanly: after any sequence of well-formed
frame records, a trailing fragment shorter than a header produces no
further output and raises no error. -/
theorem decompress_clean_eof : ∀ (cs : List Chunk) (tail : List Nat),
    (∀ c ∈ cs, (RLECompress c.data).length < 256 ^ 8) → tail.length < 16 →
    decompressFile ((cs.map frameRecord).flatten ++ tail) = (cs.map Chunk.data).flatten
  | [], tail, _, ht => by
      simp only [List.map_nil, List.flatten_nil, List.nil_append]
      rw [decompressFile, dif_pos ht]
  | c :: cs, tail, hall, ht => by
      simp only [List.map_cons, List.flatten_cons, List.append_assoc]
      rw [decompressFile_frame c _ (hall c (by simp))]
      rw [decompress_clean_eof cs tail (fun d hd => hall d (by simp [hd])) ht]

/-- Witness for C6: a lone stray byte after no records yields no output. -/
theorem decompress_clean_eof_witness :
    decompressFile ((([] : List Chunk).map frameRecord).flatten ++ [7]) =
      (([] : List Chunk).map Chunk.data).flatten :=
  decompress_clean_eof [] [7] (by simp) (by decide)

/-- C7: on every input of odd length the decoder silently ignores the
trailing lone byte — its output equals the decode of the input with the
last byte removed; no error is raised. -/
theorem rle_decode_odd_drops_trailing (s : List Nat) (h : Odd s.length) :
    RLEDecompress s = RLEDecompress s.dropLast :=
  rle_decode_dropLast s h

/-- Witness for C7 at the odd-length input `[5]`. -/
theorem rle_decode_odd_drops_trailing_witness :
    RLEDecompress [5] = RLEDecompress ([5].dropLast) :=
  rle_decode_odd_drops_trailing [5] (by decide)

/-- C8: `RLEDecompress` is total and in-bounds on arbitrary input: the
bounds-checked rendition of its loop never hits an out-of-bounds access
and agrees with the function on every byte sequence. -/
theorem rle_decode_safe (input : List Nat) :
    rleDecodeAt input 0 = some (RLEDecompress input) := by
  have h := rleDecodeAt_eq input 0
  rwa [List.drop_zero] at h

/-- C9: the encoder output is always a sequence of `(value, count)` pairs —
even length, every count between 1 and 255 (never 0) — and is at most
twice as long as the input. -/
theorem rle_output_invariants (s : List Nat) :
    Even (RLECompress s).length ∧ countsOk (RLECompress s) = true ∧
      (RLECompress s).length ≤ 2 * s.length := by
  obtain ⟨hok, hlen⟩ := rle_wf s
  exact ⟨countsOk_even _ hok, hok, hlen⟩

/-- Program position of a compression worker inside its loop body
(lines 49–68): idle between iterations, holding a freshly dequeued chunk
before taking the output lock, or inside the locked region after each of
the three `out.write` calls of lines 64–66. -/
inductive WPC where
  | idle : WPC
  | hasChunk : Chunk → WPC
  | locked : Chunk → WPC
  | wroteIndex : Chunk → WPC
  | wroteSize : Chunk → WPC
  deriving Repr, DecidableEq

/-- Shared state of the compression pipeline with `n` workers: the FIFO
work queue, the current holder of `outputMutex` (if any), every worker's
position, and the bytes appended to the shared output stream so far. -/
structure PState (n : Nat) where
  queue : List Chunk
  lock : Option (Fin n)
  workers : Fin n → WPC
  out : List Nat

/-- Interleaving semantics of the worker pool (lines 47–70): a worker may
dequeue a chunk under `queueMutex`, acquire `outputMutex` only while it is
free, and, while holding it, perform the three `out.write` calls one at a
time, releasing the mutex after the payload write.  Any worker may move at
any time, so all schedules are covered. -/
inductive WStep (n : Nat) : PState n → PState n → Prop where
  | dequeue (s : PState n) (w : Fin n) (c : Chunk) (q : List Chunk) :
      s.workers w = .idle → s.queue = c :: q →
      WStep n s ⟨q, s.lock, Function.update s.workers w (.hasChunk c), s.out⟩
  | acquire (s : PState n) (w : Fin n) (c : Chunk) :
      s.workers w = .hasChunk c → s.lock = none →
      WStep n s ⟨s.queue, some w, Function.update s.workers w (.locked c), s.out⟩
  | writeIndex (s : PState n) (w : Fin n) (c : Chunk) :
      s.workers w = .locked c →
      WStep n s ⟨s.queue, s.lock, Function.update s.workers w (.wroteIndex c),
        s.out ++ leBytes c.index 8⟩
  | writeSize (s : PState n) (w : Fin n) (c : Chunk) :
      s.workers w = .wroteIndex c →
      WStep n s ⟨s.queue, s.lock, Function.update s.workers w (.wroteSize c),
        s.out ++ leBytes (RLECompress c.data).length 8⟩
  | writePayload (s : PState n) (w : Fin n) (c : Chunk) :
      s.workers w = .wroteSize c →
      WStep n s ⟨s.queue, none, Function.update s.workers w .idle,
        s.out ++ RLECompress c.data⟩

/-- A worker position inside the mutually excluded write region. -/
def inWriteRegion : WPC → Prop
  | .locked _ => True
  | .wroteIndex _ => True
  | .wroteSize _ => True
  | _ => False

/-- State invariant: the output stream is a concatenation of whole frame
records followed — only while some worker holds the lock — by that very
worker's partial record, and no worker outside the lock holder sits in the
write region. -/
def PoolInv {n : Nat} (s : PState n) : Prop :=
  ∃ done : List Chunk,
    (s.lock = none ∧ (∀ w, ¬ inWriteRegion (s.workers w)) ∧
        s.out = (done.map frameRecord).flatten) ∨
    ∃ w c, s.lock = some w ∧ (∀ w2, w2 ≠ w → ¬ inWriteRegion (s.workers w2)) ∧
      ((s.workers w = .locked c ∧ s.out = (done.map frameRecord).flatten) ∨
       (s.workers w = .wroteIndex c ∧
          s.out = (done.map frameRecord).flatten ++ leBytes c.index 8) ∨
       (s.workers w = .wroteSize c ∧
          s.out = (done.map frameRecord).flatten ++ leBytes c.index 8 ++
            leBytes (RLECompress c.data).length 8))

/-- Initial state of a compression run: every chunk queued, lock free, all
workers idle, output empty. -/
def initState (n : Nat) (cs : List Chunk) : PState n :=
  ⟨cs, none, fun _ => .idle, []⟩

theorem inv_init (n : Nat) (cs : List Chunk) : PoolInv (initState n cs) :=
  ⟨[], Or.inl ⟨rfl, fun _ => by simp [initState, inWriteRegion], rfl⟩⟩

theorem inv_step {n : Nat} {s t : PState n} (hs : PoolInv s) (hstep : WStep n s t) :
    PoolInv t := by
  obtain ⟨done, hcase⟩ := hs
  cases hstep with
  | dequeue w c q hw hq =>
      refine ⟨done, ?_⟩
      rcases hcase with ⟨hl, hnw, hout⟩ | ⟨w0, c0, hl, hnw, hcs⟩
      · refine Or.inl ⟨hl, ?_, hout⟩
        intro w2
        by_cases hww : w2 = w
        · subst hww
          simp [Function.update_same, inWriteRegion]
        · dsimp only
          rw [Function.update_noteq hww]
          exact hnw w2
      · have hw0 : w0 ≠ w := by
          intro he
          subst he
          rcases hcs with ⟨h1, _⟩ | ⟨h1, _⟩ | ⟨h1, _⟩ <;> rw [hw] at h1 <;> cases h1
        refine Or.inr ⟨w0, c0, hl, ?_, ?_⟩
        · intro w2 hne
          by_cases hww : w2 = w
          · subst hww
            simp [Function.update_same, inWriteRegion]
          · dsimp only
            rw [Function.update_noteq hww]
            exact hnw w2 hne
        · dsimp only
          rw [Function.update_noteq hw0]
          exact hcs
  | acquire w c hw hl0 =>
      rcases hcase with ⟨hl, hnw, hout⟩ | ⟨w0, c0, hl, hnw2, hcs⟩
      · refine ⟨done, Or.inr ⟨w, c, rfl, ?_, Or.inl ⟨?_, hout⟩⟩⟩
        · intro w2 hne
          dsimp only
          rw [Function.update_noteq hne]
          exact hnw w2
        · dsimp only
          rw [Function.update_same]
      · rw [hl0] at hl
        cases hl
  | writeIndex w c hw =>
      rcases hcase with ⟨hl, hnw, hout⟩ | ⟨w0, c0, hl, hnw, hcs⟩
      · exact absurd (show inWriteRegion (s.workers w) by rw [hw]; trivial) (hnw w)
      · have hww : w = w0 := by
          by_contra hne
          exact hnw w hne (by rw [hw]; trivial)
        subst hww
        rcases hcs with ⟨h1, h2⟩ | ⟨h1, h2⟩ | ⟨h1, h2⟩
        · rw [hw] at h1
          injection h1 with hc
          subst hc
          refine ⟨done, Or.inr ⟨w, c, hl, ?_, Or.inr (Or.inl ⟨?_, ?_⟩)⟩⟩
          · intro w2 hne
            dsimp only
            rw [Function.update_noteq hne]
            exact hnw w2 hne
          · dsimp only
            rw [Function.update_same]
          · dsimp only
            rw [h2]
        · rw [hw] at h1
          cases h1
        · rw [hw] at h1
          cases h1
  | writeSize w c hw =>
      rcases hcase with ⟨hl, hnw, hout⟩ | ⟨w0, c0, hl, hnw, hcs⟩
      · exact absurd (show inWriteRegion (s.workers w) by rw [hw]; trivial) (hnw w)
      · have hww : w = w0 := by
          by_contra hne
          exact hnw w hne (by rw [hw]; trivial)
        subst hww
        rcases hcs with ⟨h1, h2⟩ | ⟨h1, h2⟩ | ⟨h1, h2⟩
        · rw [hw] at h1
          cases h1
        · rw [hw] at h1
          injection h1 with hc
          subst hc
          refine ⟨done, Or.inr ⟨w, c, hl, ?_, Or.inr (Or.inr ⟨?_, ?_⟩)⟩⟩
          · intro w2 hne
            dsimp only
            rw [Function.update_noteq hne]
            exact hnw w2 hne
          · dsimp only
            rw [Function.update_same]
          · dsimp only
            rw [h2]
        · rw [hw] at h1
          cases h1
  | writePayload w c hw =>
      rcases hcase with ⟨hl, hnw, hout⟩ | ⟨w0, c0, hl, hnw, hcs⟩
      · exact absurd (show inWriteRegion (s.workers w) by rw [hw]; trivial) (hnw w)
      · have hww : w = w0 := by
          by_contra hne
          exact hnw w hne (by rw [hw]; trivial)
        subst hww
        rcases hcs with ⟨h1, h2⟩ | ⟨h1, h2⟩ | ⟨h1, h2⟩
        · rw [hw] at h1
          cases h1
        · rw [hw] at h1
          cases h1
        · rw [hw] at h1
          injection h1 with hc
          subst hc
          refine ⟨done ++ [c], Or.inl ⟨rfl, ?_, ?_⟩⟩
          · intro w2
            by_cases hne : w2 = w
            · subst hne
              simp [Function.update_same, inWriteRegion]
            · dsimp only
              rw [Function.update_noteq hne]
              exact hnw w2 hne
          · dsimp only
            rw [h2]
            simp [frameRecord, List.map_append, List.flatten_append, List.append_assoc]

/-- C10: frame-record appends are atomic with respect to other workers.
In every state reachable from the start of a compression run, under any
worker count and any interleaving of worker steps, the shared output
stream is a concatenation of whole frame records followed by at most a
prefix of one single in-progress record — and whenever the output mutex is
free the stream consists of whole records only, so two records' bytes
never interleave. -/
theorem output_append_atomic (n : Nat) (cs : List Chunk) (s : PState n)
    (h : Relation.ReflTransGen (WStep n) (initState n cs) s) :
    ∃ (done : List Chunk) (p : List Nat),
      s.out = (done.map frameRecord).flatten ++ p ∧
      (p = [] ∨ ∃ (c : Chunk) (q : List Nat), p ++ q = frameRecord c) ∧
      (s.lock = none → s.out = (done.map frameRecord).flatten) := by
  have hinv : PoolInv s := by
    induction h with
    | refl => exact inv_init n cs
    | tail hsteps hstep ih => exact inv_step ih hstep
  obtain ⟨done, hcase⟩ := hinv
  rcases hcase with ⟨hl, _, hout⟩ | ⟨w, c, hl, _, hcs⟩
  · exact ⟨done, [], by simpa using hout, Or.inl rfl, fun _ => hout⟩
  · have hlockne : s.lock = none → False := by
      intro hn
      rw [hl] at hn
      cases hn
    rcases hcs with ⟨_, h2⟩ | ⟨_, h2⟩ | ⟨_, h2⟩
    · exact ⟨done, [], by simpa using h2, Or.inl rfl, fun hn => absurd hn hlockne⟩
    · refine ⟨done, leBytes c.index 8, h2,
        Or.inr ⟨c, leBytes (RLECompress c.data).length 8 ++ RLECompress c.data, ?_⟩,
        fun hn => absurd hn hlockne⟩
      simp [frameRecord, List.append_assoc]
    · rw [List.append_assoc] at h2
      exact ⟨done, leBytes c.index 8 ++ leBytes (RLECompress c.data).length 8, h2,
        Or.inr ⟨c, RLECompress c.data, rfl⟩, fun hn => absurd hn hlockne⟩

/-- Witness for C10 at the initial state of a two-worker run on one
chunk. -/
theorem output_append_atomic_witness :
    ∃ (done : List Chunk) (p : List Nat),
      (initState 2 [⟨0, [1]⟩]).out = (done.map frameRecord).flatten ++ p ∧
      (p = [] ∨ ∃ (c : Chunk) (q : List Nat), p ++ q = frameRecord c) ∧
      ((initState 2 [⟨0, [1]⟩]).lock = none →
        (initState 2 [⟨0, [1]⟩]).out = (done.map frameRecord).flatten) :=
  output_append_atomic 2 [⟨0, [1]⟩] (initState 2 [⟨0, [1]⟩]) Relation.ReflTransGen.refl
